import Mathlib

/-!
Verification of the email-candidate generation, ranking and multi-domain
orchestration core of the khoz-server repository.

The JavaScript source is shallowly embedded: JS strings are Lean `String`s,
JS string helpers that the code relies on (`trim().split(/\s+/)`,
`toLowerCase()`, `charAt(0)`, `replace` of the scheme/www/trailing-slash
regexes) are modelled over the underlying character list so that every
definition evaluates by kernel reduction.  JS `Array.prototype.sort` with the
comparator `(a, b) => b.confidence - a.confidence` is a stable sort ordered by
descending confidence (ES2019 guarantees stability); it is modelled by
`List.insertionSort` with the relation `b.confidence ≤ a.confidence`, which is
the stable sort for that comparator.  The seen-`Set` deduplication loops are
modelled by `dedupeKeep`, explicit accumulator recursion over the list and the
set of already-seen keys.
-/

namespace Khoz

/-- ASCII whitespace, the characters relevant to the `\s` class for the inputs
this server handles. -/
def isWs (c : Char) : Bool := c = ' ' ∨ c = '\t' ∨ c = '\n' ∨ c = '\r'

/-- Accumulator pass splitting a character list into maximal runs of
non-whitespace characters. -/
def tokensAux : List Char → List Char → List (List Char)
  | [], acc => if acc.isEmpty then [] else [acc.reverse]
  | c :: rest, acc =>
    if isWs c then (if acc.isEmpty then tokensAux rest [] else acc.reverse :: tokensAux rest [])
    else tokensAux rest (c :: acc)

/-- JS `fullName.trim().split(/\s+/)` (src/server/index.js line 52). For a
string that is empty after trimming, JS `"".split(/\s+/)` returns `[""]`, an
array holding one empty string — never the empty array. -/
def splitName (fullName : String) : List String :=
  let ts := (tokensAux fullName.data []).map String.mk
  if ts.isEmpty then [""] else ts

/-- JS `String.prototype.toLowerCase` on one character (ASCII range). -/
def lowerChar (c : Char) : Char :=
  if 65 ≤ c.toNat ∧ c.toNat ≤ 90 then Char.ofNat (c.toNat + 32) else c

/-- JS `s.toLowerCase()` (ASCII range). -/
def lowerStr (s : String) : String := String.mk (s.data.map lowerChar)

/-- JS `s.charAt(0)`: the first character as a string, `""` on the empty
string. -/
def charAt0 (s : String) : String := String.mk (s.data.take 1)

/-- Does `s` start with the literal `pre`? -/
def strStartsWith (s pre : String) : Bool := s.data.take pre.data.length = pre.data

/-- Drop the first `n` characters of `s`. -/
def strDrop (s : String) (n : Nat) : String := String.mk (s.data.drop n)

/-- Does `s` end with a `/` character? -/
def strEndsSlash (s : String) : Bool := s.data.getLast? = some '/'

/-- Remove the final character of `s`. -/
def dropLastChar (s : String) : String := String.mk s.data.dropLast

/-- `domain.replace(/^https?:\/\//, '').replace(/^www\./, '').replace(/\/$/, '')`
(src/server/index.js line 8): strip one leading scheme, one leading `www.`
and one trailing slash. -/
def cleanDomain (domain : String) : String :=
  let s1 := if strStartsWith domain "https://" then strDrop domain 8
            else if strStartsWith domain "http://" then strDrop domain 7
            else domain
  let s2 := if strStartsWith s1 "www." then strDrop s1 4 else s1
  if strEndsSlash s2 then dropLastChar s2 else s2

/-- An email candidate `{ email, confidence }` as produced by `permute`
(src/server/index.js). Confidences are the non-negative integers of the fixed
catalog. -/
structure Candidate where
  email : String
  confidence : Nat
deriving DecidableEq, Repr

/-- The order imposed by the JS comparator `(a, b) => b.confidence - a.confidence`:
`a` may come before `b` exactly when `b.confidence ≤ a.confidence`. -/
def confDesc (a b : Candidate) : Prop := b.confidence ≤ a.confidence

instance : DecidableRel confDesc :=
  fun a b => inferInstanceAs (Decidable (b.confidence ≤ a.confidence))

instance : IsTotal Candidate confDesc := ⟨fun a b => Nat.le_total b.confidence a.confidence⟩

instance : IsTrans Candidate confDesc := ⟨fun _ _ _ h1 h2 => Nat.le_trans h2 h1⟩

/-- The seen-`Set` deduplication loop of src/server/index.js lines 108-121 (and
lines 156-166, and src/unnamed/part_000 lines 525-535): walk the list in order,
keep an element only if its key has not been seen, record kept keys. Also the
shape of the `findIndex`-based filter of src/unnamed/part_001 lines 67-69,
which likewise keeps the first occurrence of every key. -/
def dedupeKeep {α : Type} (key : α → String) : List α → List String → List α
  | [], _ => []
  | c :: rest, seen =>
    if key c ∈ seen then dedupeKeep key rest seen
    else c :: dedupeKeep key rest (key c :: seen)

/-- Sort by confidence descending (stable) then drop duplicate emails keeping
the first survivor: src/server/index.js lines 107-123. -/
def rank (l : List Candidate) : List Candidate :=
  dedupeKeep Candidate.email (List.insertionSort confDesc l) []

/-- The per-name body of `generateRankedEmails` (src/server/index.js lines
51-104). `rand` models the single `Math.floor(Math.random() * 100)` draw used
by the advanced tier; the draw is in `[0, 100)`, expressed by `rand % 100`.
Note the source uses the cleaned domain for the high-confidence tier only;
the medium, lower and advanced tiers interpolate the raw `domain`. -/
def personEmails (cleanedDomain domain : String) (useAdvancedEmails : Bool) (rand : Nat)
    (fullName : String) : List Candidate :=
  let nameParts := splitName fullName
  if nameParts.length = 0 then []
  else
    let firstName := lowerStr (nameParts.headD "")
    let lastName := lowerStr (nameParts.getLastD "")
    let firstInitial := charAt0 firstName
    let lastInitial := charAt0 lastName
    let highConfidence : List Candidate := [
      ⟨firstName ++ "." ++ lastName ++ "@" ++ cleanedDomain, 95⟩,
      ⟨firstName ++ "@" ++ cleanedDomain, 90⟩,
      ⟨firstName ++ lastName ++ "@" ++ cleanedDomain, 85⟩,
      ⟨firstInitial ++ lastName ++ "@" ++ cleanedDomain, 80⟩,
      ⟨lastName ++ "@" ++ cleanedDomain, 75⟩]
    let mediumConfidence : List Candidate := [
      ⟨firstName ++ "-" ++ lastName ++ "@" ++ domain, 70⟩,
      ⟨firstName ++ "_" ++ lastName ++ "@" ++ domain, 65⟩,
      ⟨firstInitial ++ "." ++ lastName ++ "@" ++ domain, 60⟩,
      ⟨firstInitial ++ lastInitial ++ "@" ++ domain, 55⟩,
      ⟨firstName ++ firstInitial ++ "@" ++ domain, 50⟩]
    let lowerConfidence : List Candidate := [
      ⟨firstInitial ++ "-" ++ lastName ++ "@" ++ domain, 45⟩,
      ⟨firstInitial ++ "_" ++ lastName ++ "@" ++ domain, 40⟩,
      ⟨firstName ++ lastInitial ++ "@" ++ domain, 35⟩,
      ⟨lastName ++ firstInitial ++ "@" ++ domain, 30⟩,
      ⟨firstInitial ++ "." ++ firstInitial ++ "@" ++ domain, 25⟩]
    let advancedPatterns : List Candidate :=
      if useAdvancedEmails then [
        ⟨firstName ++ lastName ++ firstInitial ++ "@" ++ domain, 20⟩,
        ⟨lastName ++ firstName ++ "@" ++ domain, 15⟩,
        ⟨firstInitial ++ lastName ++ lastInitial ++ "@" ++ domain, 10⟩,
        ⟨firstName ++ lastName ++ Nat.repr (rand % 100) ++ "@" ++ domain, 5⟩]
      else []
    advancedPatterns ++ highConfidence ++ mediumConfidence ++ lowerConfidence

/-- `generateRankedEmails` (src/server/index.js lines 48-124): per-name pattern
catalogs concatenated over all names, then sorted by confidence (stable,
descending) with duplicate emails dropped.  `rands` supplies the per-name
random draw for the advanced tier, indexed by the position of the name. -/
def generateRankedEmails (cleanedDomain domain : String) (useAdvancedEmails : Bool)
    (rands : Nat → Nat) (names : List String) : List Candidate :=
  rank ((names.enum.map
    (fun p => personEmails cleanedDomain domain useAdvancedEmails (rands p.1) p.2)).flatten)

/-- The tail of `permute` (src/server/index.js lines 126-169): webhook-name
candidates (when any names were resolved) concatenated with custom-name
candidates (`name@cleanDomain` at fixed confidence 95, gated by
`useCustomNames && selectedCustomNames.length > 0`), then the final
sort-and-dedupe pass. -/
def permuteEmails (domain : String) (useCustomNames : Bool) (selectedCustomNames : List String)
    (useAdvancedEmails : Bool) (rands : Nat → Nat) (webhookNames : List String) :
    List Candidate :=
  rank ((if webhookNames.length > 0 then
      generateRankedEmails (cleanDomain domain) domain useAdvancedEmails rands webhookNames
    else []) ++
    (if useCustomNames ∧ selectedCustomNames.length > 0 then
      selectedCustomNames.map
        (fun name => (⟨name ++ "@" ++ cleanDomain domain, 95⟩ : Candidate))
    else []))

/-- A candidate of the session controller (src/unnamed/part_001): email,
confidence and the generation method tag. -/
structure GenCandidate where
  email : String
  confidence : Nat
  generationMethod : String
deriving DecidableEq, Repr

/-- Descending-confidence order for `GenCandidate`, from the comparator
`(a, b) => b.confidence - a.confidence` of src/unnamed/part_001 line 71. -/
def gconfDesc (a b : GenCandidate) : Prop := b.confidence ≤ a.confidence

instance : DecidableRel gconfDesc :=
  fun a b => inferInstanceAs (Decidable (b.confidence ≤ a.confidence))

instance : IsTotal GenCandidate gconfDesc := ⟨fun a b => Nat.le_total b.confidence a.confidence⟩

instance : IsTrans GenCandidate gconfDesc := ⟨fun _ _ _ h1 h2 => Nat.le_trans h2 h1⟩

/-- The `formData` record consumed by `generateEmails`
(src/unnamed/part_001 line 8). JS string truthiness (`if (firstName)`) is
modelled as inequality with the empty string, absent fields as `""`. -/
structure FormData where
  firstName : String
  lastName : String
  nickName : String
  middleName : String
  customName : String
  useNickName : Bool
  useCustomNames : Bool
  usePersonalInfo : Bool
  useAdvancedEmails : Bool
  selectedCustomNames : List String
deriving DecidableEq, Repr

/-- The sequence of `emails.push(...)` calls of `generateEmails`
(src/unnamed/part_001 lines 6-64), in source order. -/
def generateEmailsRaw (f : FormData) (domain : String) : List GenCandidate :=
  let personalPart : List GenCandidate :=
    if f.usePersonalInfo then
      (if f.firstName ≠ "" ∧ f.lastName ≠ "" then [
        ⟨lowerStr f.firstName ++ "." ++ lowerStr f.lastName ++ "@" ++ domain, 85, "personal_info"⟩,
        ⟨lowerStr f.firstName ++ lowerStr f.lastName ++ "@" ++ domain, 80, "personal_info"⟩,
        ⟨charAt0 (lowerStr f.firstName) ++ lowerStr f.lastName ++ "@" ++ domain, 75, "personal_info"⟩,
        ⟨lowerStr f.firstName ++ "_" ++ lowerStr f.lastName ++ "@" ++ domain, 70, "personal_info"⟩]
       else []) ++
      (if f.firstName ≠ "" then
        [⟨lowerStr f.firstName ++ "@" ++ domain, 60, "personal_info"⟩] else []) ++
      (if f.lastName ≠ "" then
        [⟨lowerStr f.lastName ++ "@" ++ domain, 55, "personal_info"⟩] else []) ++
      (if f.firstName ≠ "" ∧ f.middleName ≠ "" ∧ f.lastName ≠ "" then
        [⟨lowerStr f.firstName ++ "." ++ lowerStr f.middleName ++ "." ++ lowerStr f.lastName ++
            "@" ++ domain, 65, "personal_info"⟩] else [])
    else []
  let nicknamePart : List GenCandidate :=
    if f.useNickName ∧ f.nickName ≠ "" then
      [⟨lowerStr f.nickName ++ "@" ++ domain, 70, "nickname"⟩] ++
      (if f.lastName ≠ "" then
        [⟨lowerStr f.nickName ++ "." ++ lowerStr f.lastName ++ "@" ++ domain, 65, "nickname"⟩]
       else [])
    else []
  let customPart : List GenCandidate :=
    if f.useCustomNames ∧ f.customName ≠ "" then
      [⟨lowerStr f.customName ++ "@" ++ domain, 90, "custom_names"⟩] else []
  let selectedPart : List GenCandidate :=
    if f.selectedCustomNames.length > 0 then
      f.selectedCustomNames.map
        (fun name => (⟨lowerStr name ++ "@" ++ domain, 90, "custom_names"⟩ : GenCandidate))
    else []
  let advancedPart : List GenCandidate :=
    if f.useAdvancedEmails then
      (if f.firstName ≠ "" ∧ f.lastName ≠ "" then [
        ⟨lowerStr f.firstName ++ "-" ++ lowerStr f.lastName ++ "@" ++ domain, 70,
          "advanced_patterns"⟩,
        ⟨lowerStr f.firstName ++ charAt0 (lowerStr f.lastName) ++ "@" ++ domain, 65,
          "advanced_patterns"⟩,
        ⟨charAt0 (lowerStr f.firstName) ++ "." ++ lowerStr f.lastName ++ "@" ++ domain, 75,
          "advanced_patterns"⟩] else []) ++
      (if f.firstName ≠ "" then [
        ⟨lowerStr f.firstName ++ "1@" ++ domain, 50, "advanced_patterns"⟩,
        ⟨lowerStr f.firstName ++ "2@" ++ domain, 45, "advanced_patterns"⟩] else [])
    else []
  personalPart ++ nicknamePart ++ customPart ++ selectedPart ++ advancedPart

/-- `generateEmails` (src/unnamed/part_001 lines 6-72): generate, keep the
first occurrence of every email (the `findIndex` filter of lines 67-69), then
stable-sort by confidence descending (line 71). Note: unlike
src/server/index.js, deduplication here happens before sorting. -/
def generateEmails (f : FormData) (domain : String) : List GenCandidate :=
  List.insertionSort gconfDesc (dedupeKeep GenCandidate.email (generateEmailsRaw f domain) [])

/-- The confidence-threshold filter and per-domain cap of `processDomain`
(src/unnamed/part_001 lines 192-201): keep generated candidates with
`confidence >= confidenceThreshold`, then `slice(0, maxEmailsPerDomain)`.
The resulting list is both stored and returned. -/
def processDomainEmails (f : FormData) (domain : String)
    (confidenceThreshold maxEmailsPerDomain : Nat) : List GenCandidate :=
  (((generateEmails f domain).filter
      (fun e => confidenceThreshold ≤ e.confidence)).take maxEmailsPerDomain)

/-- JS `value || dflt` for an optional numeric config field (`0` is falsy). -/
def jsOrNat (v : Option Nat) (dflt : Nat) : Nat :=
  match v with
  | none => dflt
  | some n => if n = 0 then dflt else n

/-- The session config defaults of `startDiscovery` (src/unnamed/part_001
lines 102-107): `maxEmailsPerDomain || 100` and `confidenceThreshold || 25`. -/
def sessionConfig (maxEmailsPerDomain confidenceThreshold : Option Nat) : Nat × Nat :=
  (jsOrNat maxEmailsPerDomain 100, jsOrNat confidenceThreshold 25)

/-- Events observable at the boundary of the multi-domain loop: a
name-resolution call for a domain, and a `setTimeout` delay in milliseconds. -/
inductive Event where
  | resolve (domain : String)
  | delay (ms : Nat)
deriving DecidableEq, Repr

/-- A per-domain entry of `results` in `processMultipleDomains`
(src/unnamed/part_000 lines 489-495 and 511-518). -/
structure DomainResult where
  domain : String
  emails : List Candidate
  status : String
  errorDetail : Option String
deriving DecidableEq, Repr

/-- Accumulated state of the domain loop: the `results` array, the
`allCombinedEmails` array, and the emitted event trace. -/
structure LoopOut where
  results : List DomainResult
  combined : List Candidate
  trace : List Event
deriving DecidableEq, Repr

/-- The webhook names `permute` extracts when a name-resolution failure is
recovered with `generateFallbackData` (src/unnamed/part_000 lines 547-555):
the executive fields are all `null`, but the object also carries the non-null
`note` string, and `permute`'s filter (src/server/index.js lines 20-22) keeps
every value that is not `null`, not `"null"` and not blank — so the note
string itself survives as a single junk "name". -/
def fallbackNames (domain : String) : List String :=
  ["Fallback data generated for " ++ domain ++ " due to API limitations"]

/-- The `for` loop of `processMultipleDomains` (src/unnamed/part_000 lines
386-520), one `await`ed iteration per domain. The name-resolution collaborator
(the Perplexity fetch of lines 393-459) is abstracted as `resolver`, returning
the non-null executive names or a failure. A failure is caught by the inner
`catch` of lines 460-469 and replaced by `generateFallbackData`; its non-null
`note` field passes `permute`'s name filter, so the failed domain is processed
with the single junk name `fallbackNames d` and still completes. (The
HTTP-not-ok path leaves `webhookResponse` null, i.e. zero names — representable
here as `resolver` returning `.ok []`; the parse-error path also substitutes
the fallback data.) The outer `catch` of lines 509-519 (status `error`) is
reachable only from stages outside the name-resolution `try` (for example a
malformed `selectedCustomNames` JSON string), none of which the modelled data
can raise, so every modelled iteration pushes status `completed`. The
`setTimeout` delay of lines 504-507 runs after every domain except the last.
JS `await` sequencing is modelled as the linear event trace: an iteration's
events precede all events of later iterations. -/
def processLoop (resolver : String → Except String (List String)) (useCustomNames : Bool)
    (selectedCustomNames : List String) (useAdvancedEmails : Bool) (rands : Nat → Nat) :
    List String → LoopOut
  | [] => ⟨[], [], []⟩
  | d :: rest =>
    let names := match resolver d with
      | .ok ns => ns
      | .error _ => fallbackNames d
    let emails := permuteEmails d useCustomNames selectedCustomNames useAdvancedEmails rands names
    let prev := processLoop resolver useCustomNames selectedCustomNames useAdvancedEmails rands rest
    ⟨⟨d, emails, "completed", none⟩ :: prev.results,
     (if emails.length > 0 then emails else []) ++ prev.combined,
     Event.resolve d :: ((if rest.isEmpty then [] else [Event.delay 1000]) ++ prev.trace)⟩

/-- The value returned by `processMultipleDomains` (src/unnamed/part_000 lines
540-543): the per-domain results and the globally deduplicated, ranked email
set, plus the observed event trace. -/
structure BatchOutcome where
  domainResults : List DomainResult
  globalEmails : List Candidate
  trace : List Event
deriving Repr

/-- `processMultipleDomains` (src/unnamed/part_000 lines 352-544) applied to
the already-cleaned `uniqueDomains` list: run the sequential loop, then the
global sort-and-dedupe pass of lines 524-535 (textually the same
sort-and-dedupe as `rank`). -/
def processMultipleDomains (resolver : String → Except String (List String))
    (useCustomNames : Bool) (selectedCustomNames : List String) (useAdvancedEmails : Bool)
    (rands : Nat → Nat) (uniqueDomains : List String) : BatchOutcome :=
  let out := processLoop resolver useCustomNames selectedCustomNames useAdvancedEmails rands
    uniqueDomains
  ⟨out.results, rank out.combined, out.trace⟩

/-- Transcribed from the spec sentence for comparison with the source
orchestrator: the collaborator is called once per domain in input order with
the fixed inter-domain delay after every domain except the last. -/
def specSequentialTrace (ms : Nat) : List String → List Event
  | [] => []
  | [d] => [Event.resolve d]
  | d :: rest => Event.resolve d :: Event.delay ms :: specSequentialTrace ms rest

/-- Sample session form data: first name only, personal-info path active,
every other source disabled. -/
def johnForm : FormData := ⟨"john", "", "", "", "", false, false, true, false, []⟩

/-- Sample session form data whose nickname equals its first name, so the
personal-info path (confidence 60) and the nickname path (confidence 70)
generate the same email address. -/
def smithForm : FormData := ⟨"smith", "", "smith", "", "", true, false, true, false, []⟩

/-- Sample name-resolution collaborator that succeeds for `good.com` and fails
for every other domain. -/
def demoResolver : String → Except String (List String) :=
  fun d => if d = "good.com" then .ok ["Alice Smith"] else .error "name resolution failed"

/-! ## Properties of the deduplication loop -/

theorem dedupeKeep_sublist {α : Type} (key : α → String) (l : List α) :
    ∀ seen, List.Sublist (dedupeKeep key l seen) l := by
  induction l with
  | nil => intro seen; simp [dedupeKeep]
  | cons c rest ih =>
    intro seen
    unfold dedupeKeep
    by_cases h : key c ∈ seen
    · simp only [if_pos h]
      exact (ih seen).cons c
    · simp only [if_neg h]
      exact (ih (key c :: seen)).cons₂ c

theorem dedupeKeep_keys_nodup {α : Type} (key : α → String) (l : List α) :
    ∀ seen, ((dedupeKeep key l seen).map key).Nodup ∧
      ∀ e ∈ (dedupeKeep key l seen).map key, e ∉ seen := by
  induction l with
  | nil => intro seen; simp [dedupeKeep]
  | cons c rest ih =>
    intro seen
    unfold dedupeKeep
    by_cases h : key c ∈ seen
    · simpa [if_pos h] using ih seen
    · obtain ⟨hn, hs⟩ := ih (key c :: seen)
      refine ⟨?_, ?_⟩
      · simp only [if_neg h, List.map_cons, List.nodup_cons]
        exact ⟨fun hc => (hs _ hc) (List.mem_cons_self _ _), hn⟩
      · intro e he
        simp only [if_neg h, List.map_cons, List.mem_cons] at he
        rcases he with rfl | he
        · exact h
        · exact fun hmem => (hs e he) (List.mem_cons_of_mem _ hmem)

theorem dedupeKeep_mem_key {α : Type} (key : α → String) {c : α} (l : List α) :
    ∀ seen, c ∈ l → key c ∉ seen → ∃ d ∈ dedupeKeep key l seen, key d = key c := by
  induction l with
  | nil => intro seen hc; exact absurd hc (List.not_mem_nil c)
  | cons x rest ih =>
    intro seen hc hcs
    unfold dedupeKeep
    by_cases h : key x ∈ seen
    · rcases List.mem_cons.mp hc with rfl | hc2
      · exact absurd h hcs
      · simpa [if_pos h] using ih seen hc2 hcs
    · simp only [if_neg h]
      rcases List.mem_cons.mp hc with rfl | hc2
      · exact ⟨c, List.mem_cons_self _ _, rfl⟩
      · by_cases hk : key c = key x
        · exact ⟨x, List.mem_cons_self _ _, hk.symm⟩
        · have hns : key c ∉ key x :: seen := by
            intro hmem
            rcases List.mem_cons.mp hmem with h1 | h1
            · exact hk h1
            · exact hcs h1
          obtain ⟨d, hd, hkey⟩ := ih (key x :: seen) hc2 hns
          exact ⟨d, List.mem_cons_of_mem _ hd, hkey⟩

theorem dedupeKeep_eq_self {α : Type} (key : α → String) (l : List α) :
    ∀ seen, (∀ a ∈ l, key a ∉ seen) → (l.map key).Nodup → dedupeKeep key l seen = l := by
  induction l with
  | nil => intro seen _ _; rfl
  | cons c rest ih =>
    intro seen hseen hnd
    simp only [List.map_cons, List.nodup_cons] at hnd
    unfold dedupeKeep
    have hc : key c ∉ seen := hseen c (List.mem_cons_self _ _)
    simp only [if_neg hc]
    congr 1
    apply ih
    · intro a ha hmem
      rcases List.mem_cons.mp hmem with h1 | h1
      · exact hnd.1 (h1 ▸ List.mem_map_of_mem key ha)
      · exact hseen a (List.mem_cons_of_mem _ ha) h1
    · exact hnd.2

/-- In a confidence-descending list, the occurrence of an email kept by the
deduplication loop carries the maximal confidence among all occurrences of
that email. -/
theorem dedupeKeep_max {l : List Candidate} (hs : l.Pairwise confDesc) :
    ∀ seen {c d : Candidate}, c ∈ l → c.email ∉ seen →
      d ∈ dedupeKeep Candidate.email l seen → d.email = c.email →
      c.confidence ≤ d.confidence := by
  induction l with
  | nil => intro seen c d hc; exact absurd hc (List.not_mem_nil c)
  | cons x rest ih =>
    intro seen c d hc hcs hd he
    obtain ⟨hx1, hx2⟩ := List.pairwise_cons.mp hs
    unfold dedupeKeep at hd
    by_cases h : x.email ∈ seen
    · rw [if_pos h] at hd
      rcases List.mem_cons.mp hc with rfl | hc2
      · exact absurd h hcs
      · exact ih hx2 seen hc2 hcs hd he
    · rw [if_neg h] at hd
      rcases List.mem_cons.mp hd with rfl | hd2
      · rcases List.mem_cons.mp hc with rfl | hc2
        · exact Nat.le_refl _
        · exact hx1 c hc2
      · have hkeys := (dedupeKeep_keys_nodup Candidate.email rest (x.email :: seen)).2
        have hdk : d.email ∈ (dedupeKeep Candidate.email rest (x.email :: seen)).map
            Candidate.email := List.mem_map_of_mem _ hd2
        rcases List.mem_cons.mp hc with rfl | hc2
        · exact absurd (by rw [he]; exact List.mem_cons_self _ _) (hkeys _ hdk)
        · by_cases hk : c.email = x.email
          · exact absurd (by rw [he, hk]; exact List.mem_cons_self _ _) (hkeys _ hdk)
          · have hns : c.email ∉ x.email :: seen := by
              intro hmem
              rcases List.mem_cons.mp hmem with h1 | h1
              · exact hk h1
              · exact hcs h1
            exact ih hx2 (x.email :: seen) hc2 hns hd2 he

/-! ## Properties of the ranking engine -/

theorem rank_pairwise (l : List Candidate) : (rank l).Pairwise confDesc :=
  List.Pairwise.sublist (dedupeKeep_sublist Candidate.email (List.insertionSort confDesc l) [])
    (List.sorted_insertionSort confDesc l)

theorem rank_nodup_emails (l : List Candidate) : ((rank l).map Candidate.email).Nodup :=
  (dedupeKeep_keys_nodup Candidate.email (List.insertionSort confDesc l) []).1

theorem rank_subset {l : List Candidate} {c : Candidate} (h : c ∈ rank l) : c ∈ l :=
  (List.perm_insertionSort confDesc l).subset
    ((dedupeKeep_sublist Candidate.email (List.insertionSort confDesc l) []).subset h)

theorem rank_mem_email {l : List Candidate} {c : Candidate} (h : c ∈ l) :
    ∃ d ∈ rank l, d.email = c.email :=
  dedupeKeep_mem_key Candidate.email (List.insertionSort confDesc l) []
    ((List.perm_insertionSort confDesc l).mem_iff.mpr h) (List.not_mem_nil _)

theorem rank_max {l : List Candidate} {c d : Candidate} (hc : c ∈ l) (hd : d ∈ rank l)
    (he : d.email = c.email) : c.confidence ≤ d.confidence :=
  dedupeKeep_max (List.sorted_insertionSort confDesc l) []
    ((List.perm_insertionSort confDesc l).mem_iff.mpr hc) (List.not_mem_nil _) hd he

theorem rank_email_inj {l : List Candidate} {d1 d2 : Candidate} (h1 : d1 ∈ rank l)
    (h2 : d2 ∈ rank l) (he : d1.email = d2.email) : d1 = d2 :=
  List.inj_on_of_nodup_map (rank_nodup_emails l) h1 h2 he

theorem rank_eq_of_sorted_nodup {l : List Candidate} (hs : l.Pairwise confDesc)
    (hn : (l.map Candidate.email).Nodup) : rank l = l := by
  unfold rank
  rw [List.Sorted.insertionSort_eq hs]
  exact dedupeKeep_eq_self _ l [] (fun a _ => List.not_mem_nil _) hn

theorem rank_idem (l : List Candidate) : rank (rank l) = rank l :=
  rank_eq_of_sorted_nodup (rank_pairwise l) (rank_nodup_emails l)

/-! ## Claim theorems -/

/-- C1: for the name with first `john` and last `doe` on the already-clean
domain `example.com` with the advanced tier disabled, `generateRankedEmails`
returns exactly the fifteen catalog candidates, confidence descending, with
`john.doe@example.com` at confidence 95 first. -/
theorem johnDoe_catalog :
    generateRankedEmails "example.com" "example.com" false (fun _ => 0) ["john doe"] = [
      ⟨"john.doe@example.com", 95⟩, ⟨"john@example.com", 90⟩, ⟨"johndoe@example.com", 85⟩,
      ⟨"jdoe@example.com", 80⟩, ⟨"doe@example.com", 75⟩, ⟨"john-doe@example.com", 70⟩,
      ⟨"john_doe@example.com", 65⟩, ⟨"j.doe@example.com", 60⟩, ⟨"jd@example.com", 55⟩,
      ⟨"johnj@example.com", 50⟩, ⟨"j-doe@example.com", 45⟩, ⟨"j_doe@example.com", 40⟩,
      ⟨"johnd@example.com", 35⟩, ⟨"doej@example.com", 30⟩, ⟨"j.j@example.com", 25⟩] ∧
    cleanDomain "example.com" = "example.com" := by
  decide

/-- C2: the output of the ranking pass is a ranked candidate set: no two
elements share an email, and every adjacent pair is confidence-descending. -/
theorem rank_ranked_set (l : List Candidate) :
    ((rank l).map Candidate.email).Nodup ∧
      (rank l).Pairwise (fun a b => b.confidence ≤ a.confidence) :=
  ⟨rank_nodup_emails l, rank_pairwise l⟩

/-- C3 counterexample: in the session controller's `generateEmails`
(src/unnamed/part_001) deduplication runs before sorting and keeps the
first-generated occurrence, so with a nickname equal to the first name the
raw generation contains `smith@example.com` at confidence 60 (personal info)
and at confidence 70 (nickname), and the retained candidate carries the lower
confidence 60 — the higher-confidence duplicate is dropped. -/
theorem dedup_retains_lower_confidence :
    (⟨"smith@example.com", 60, "personal_info"⟩ : GenCandidate) ∈
        generateEmailsRaw smithForm "example.com" ∧
    (⟨"smith@example.com", 70, "nickname"⟩ : GenCandidate) ∈
        generateEmailsRaw smithForm "example.com" ∧
    generateEmails smithForm "example.com" =
        [⟨"smith@example.com", 60, "personal_info"⟩] := by
  decide

/-- C3 (amended): for the sort-then-dedupe ranking function of
src/server/index.js, an input list holding two candidates with the same email
and different confidences yields a unique retained candidate for that email,
and it carries at least the higher of the two confidences (the maximum over
all candidates with that email); the session controller's `generateEmails`
deduplicates before sorting and instead retains the first-generated
occurrence, which can carry the lower confidence. -/
theorem rank_highest_confidence_wins {l : List Candidate} {c1 c2 : Candidate}
    (h1 : c1 ∈ l) (h2 : c2 ∈ l) (he : c1.email = c2.email)
    (hc : c2.confidence < c1.confidence) :
    ∃ c ∈ rank l, c.email = c1.email ∧ c1.confidence ≤ c.confidence ∧
      ∀ d ∈ rank l, d.email = c1.email → d = c := by
  obtain ⟨c, hcr, hce⟩ := rank_mem_email h1
  exact ⟨c, hcr, hce, rank_max h1 hcr hce,
    fun d hd hde => rank_email_inj hd hcr (hde.trans hce.symm)⟩

/-- Witness for C3 at the concrete input `[a@b.com:50, a@b.com:90]`. -/
theorem rank_highest_confidence_wins_witness :
    ∃ c ∈ rank [(⟨"a@b.com", 50⟩ : Candidate), ⟨"a@b.com", 90⟩], c.email = "a@b.com" ∧
      90 ≤ c.confidence ∧
      ∀ d ∈ rank [(⟨"a@b.com", 50⟩ : Candidate), ⟨"a@b.com", 90⟩], d.email = "a@b.com" → d = c :=
  @rank_highest_confidence_wins [⟨"a@b.com", 50⟩, ⟨"a@b.com", 90⟩] ⟨"a@b.com", 90⟩
    ⟨"a@b.com", 50⟩ (by decide) (by decide) rfl (by decide)

/-- C6 (code bug): a name that is empty after trimming is not skipped.
JS `"".trim().split(/\s+/)` is `[""]`, an array of length 1, so the
`nameParts.length === 0` guard of src/server/index.js line 53 never fires and
the empty name produces four junk candidates instead of zero. -/
theorem empty_name_not_skipped :
    splitName "" = [""] ∧
    generateRankedEmails "example.com" "example.com" false (fun _ => 0) [""] = [
      ⟨".@example.com", 95⟩, ⟨"@example.com", 90⟩, ⟨"-@example.com", 70⟩,
      ⟨"_@example.com", 65⟩] ∧
    generateRankedEmails "example.com" "example.com" false (fun _ => 0) [""] ≠ [] := by
  decide

/-- C8: the ranking function is idempotent — a ranked set is a fixed point. -/
theorem rank_idempotent (l : List Candidate) : rank (rank l) = rank l :=
  rank_idem l

/-- C10: the per-domain session path returns exactly the generated candidates
at or above the confidence threshold, truncated to the per-domain cap: every
returned candidate meets the threshold and the count never exceeds the cap;
the session defaults are `maxEmailsPerDomain = 100`, `confidenceThreshold = 25`. -/
theorem process_domain_threshold_cap (f : FormData) (domain : String)
    (confidenceThreshold maxEmailsPerDomain : Nat) :
    (∀ c ∈ processDomainEmails f domain confidenceThreshold maxEmailsPerDomain,
        confidenceThreshold ≤ c.confidence) ∧
    (processDomainEmails f domain confidenceThreshold maxEmailsPerDomain).length ≤
        maxEmailsPerDomain ∧
    sessionConfig none none = (100, 25) := by
  refine ⟨?_, ?_, rfl⟩
  · intro c hcx
    simpa using (List.mem_filter.mp (List.mem_of_mem_take hcx)).2
  · calc (processDomainEmails f domain confidenceThreshold maxEmailsPerDomain).length
        = min maxEmailsPerDomain _ := List.length_take _ _
      _ ≤ maxEmailsPerDomain := Nat.min_le_left _ _

/-- Witness for C10 at the concrete session form `johnForm`, threshold 25,
cap 100. -/
theorem process_domain_threshold_cap_witness :
    25 ≤ (⟨"john@example.com", 60, "personal_info"⟩ : GenCandidate).confidence ∧
    (processDomainEmails johnForm "example.com" 25 100).length ≤ 100 :=
  ⟨(process_domain_threshold_cap johnForm "example.com" 25 100).1
      ⟨"john@example.com", 60, "personal_info"⟩ (by decide),
   (process_domain_threshold_cap johnForm "example.com" 25 100).2.1⟩

/-- C7: a form with only a first name (no last name), personal-info path
active and every other source disabled degrades to the reduced candidate set:
exactly `first@domain` at confidence 60. -/
theorem partial_name_reduced_set (f : FormData) (domain : String)
    (hp : f.usePersonalInfo = true) (hf : f.firstName ≠ "") (hl : f.lastName = "")
    (hn : f.useNickName = false) (hc : f.useCustomNames = false)
    (hs : f.selectedCustomNames = []) (ha : f.useAdvancedEmails = false) :
    generateEmails f domain = [⟨lowerStr f.firstName ++ "@" ++ domain, 60, "personal_info"⟩] := by
  unfold generateEmails generateEmailsRaw
  simp [hp, hf, hl, hn, hc, hs, ha, dedupeKeep, List.insertionSort, List.orderedInsert]

/-- Witness for C7 at the concrete form `johnForm` on `example.com`. -/
theorem partial_name_reduced_set_witness :
    generateEmails johnForm "example.com" = [⟨"john@example.com", 60, "personal_info"⟩] := by
  exact partial_name_reduced_set johnForm "example.com" rfl (by decide) rfl rfl rfl rfl rfl

theorem processLoop_trace (resolver : String → Except String (List String))
    (useCustomNames : Bool) (selectedCustomNames : List String) (useAdvancedEmails : Bool)
    (rands : Nat → Nat) (l : List String) :
    (processLoop resolver useCustomNames selectedCustomNames useAdvancedEmails rands l).trace =
      specSequentialTrace 1000 l := by
  induction l with
  | nil => rfl
  | cons d rest ih =>
    cases rest with
    | nil => simp [processLoop, specSequentialTrace]
    | cons r rs =>
      simp only [processLoop, specSequentialTrace, List.isEmpty_cons, List.cons_append,
        List.nil_append, Bool.false_eq_true, if_false] at ih ⊢
      rw [ih]

/-- C9: the orchestrator is strictly sequential — its event trace is exactly
one name-resolution call per domain in input order, with the fixed 1000 ms
delay between consecutive domains and none after the last (so for 3 domains:
resolve, delay, resolve, delay, resolve). JS `await` sequencing is modelled
as the linear order of the trace: nothing for domain `i+1` is issued before
domain `i`'s iteration finishes. -/
theorem orchestrator_trace_sequential (resolver : String → Except String (List String))
    (useCustomNames : Bool) (selectedCustomNames : List String) (useAdvancedEmails : Bool)
    (rands : Nat → Nat) (uniqueDomains : List String) :
    (processMultipleDomains resolver useCustomNames selectedCustomNames useAdvancedEmails rands
        uniqueDomains).trace = specSequentialTrace 1000 uniqueDomains :=
  processLoop_trace resolver useCustomNames selectedCustomNames useAdvancedEmails rands
    uniqueDomains

/-- The length guard of `allCombinedEmails.push` (src/unnamed/part_000 lines
498-500) is a no-op: skipping an empty push equals appending the empty list. -/
theorem lengthGuard_eq {α : Type} (l : List α) : (if l.length > 0 then l else []) = l := by
  cases l <;> simp

/-- C4 counterexample: with a resolver that fails for `bad.com`, the batch
marks `bad.com` as `completed`, not `error` — the name-resolution failure is
swallowed by the inner catch and replaced with fallback data — and the global
ranked set is not built only from `good.com`'s candidates: the fallback note
string survives `permute`'s name filter and its junk catalog candidate
`fallback.limitations@bad.com` (confidence 95) reaches the global set. -/
theorem batch_resolver_failure_not_error :
    demoResolver "bad.com" = .error "name resolution failed" ∧
    (processMultipleDomains demoResolver false [] false (fun _ => 0)
        ["good.com", "bad.com"]).domainResults.map DomainResult.status =
      ["completed", "completed"] ∧
    ("completed" : String) ≠ "error" ∧
    (⟨"fallback.limitations@bad.com", 95⟩ : Candidate) ∈
      (processMultipleDomains demoResolver false [] false (fun _ => 0)
        ["good.com", "bad.com"]).globalEmails :=
  ⟨rfl, by decide, by decide, by decide⟩

/-- C4 (amended): for domains `[good.com, bad.com]` where the resolver fails
only for `bad.com` (custom names disabled), the batch still returns two
per-domain results and is not aborted; but `bad.com`'s status is `completed`,
not `error` — the failure is recovered with `generateFallbackData`, whose
non-null note string passes `permute`'s name filter and yields a full junk
pattern catalog for `bad.com` — and the global ranked set is the deduplicated
union of `good.com`'s and `bad.com`'s candidates, not `good.com`'s alone. -/
theorem batch_partial_resolver_failure (resolver : String → Except String (List String))
    (ns : List String) (e : String) (useAdvancedEmails : Bool) (rands : Nat → Nat)
    (hg : resolver "good.com" = .ok ns) (hb : resolver "bad.com" = .error e) :
    processMultipleDomains resolver false [] useAdvancedEmails rands ["good.com", "bad.com"] =
      ⟨[⟨"good.com", permuteEmails "good.com" false [] useAdvancedEmails rands ns, "completed",
          none⟩,
        ⟨"bad.com",
          permuteEmails "bad.com" false [] useAdvancedEmails rands (fallbackNames "bad.com"),
          "completed", none⟩],
        rank (permuteEmails "good.com" false [] useAdvancedEmails rands ns ++
          permuteEmails "bad.com" false [] useAdvancedEmails rands (fallbackNames "bad.com")),
        [Event.resolve "good.com", Event.delay 1000, Event.resolve "bad.com"]⟩ := by
  simp [processMultipleDomains, processLoop, hg, hb, lengthGuard_eq]

/-- Witness for C4 at the concrete resolver `demoResolver`, with the junk
candidate generated for the failed domain exhibited inside the global set. -/
theorem batch_partial_resolver_failure_witness :
    (processMultipleDomains demoResolver false [] false (fun _ => 0) ["good.com", "bad.com"] =
      ⟨[⟨"good.com", permuteEmails "good.com" false [] false (fun _ => 0) ["Alice Smith"],
          "completed", none⟩,
        ⟨"bad.com", permuteEmails "bad.com" false [] false (fun _ => 0)
          (fallbackNames "bad.com"), "completed", none⟩],
        rank (permuteEmails "good.com" false [] false (fun _ => 0) ["Alice Smith"] ++
          permuteEmails "bad.com" false [] false (fun _ => 0) (fallbackNames "bad.com")),
        [Event.resolve "good.com", Event.delay 1000, Event.resolve "bad.com"]⟩) ∧
    (⟨"fallback.limitations@bad.com", 95⟩ : Candidate) ∈
      (processMultipleDomains demoResolver false [] false (fun _ => 0)
        ["good.com", "bad.com"]).globalEmails :=
  ⟨batch_partial_resolver_failure demoResolver ["Alice Smith"] "name resolution failed" false
    (fun _ => 0) rfl rfl, by decide⟩

theorem no_slash_at_clean (lp : String) :
    strEndsSlash (lp ++ "@" ++ "example.com") = false := by
  unfold strEndsSlash
  have hm : "example.com".data.getLast? = some 'm' := by decide
  rw [String.data_append, List.getLast?_append, hm, Option.or_some]
  decide

/-- C5 counterexample: on the raw domain `https://www.example.com/` the
medium-tier candidate `john-doe@https://www.example.com/` is joined with the
raw domain, not the cleaned `example.com` (it is not `lp@example.com` for any
local part `lp`), and the custom-name candidate `JDoe@example.com` keeps the
caller's casing, so its local part is not lowercase. -/
theorem email_shape_counterexample :
    (⟨"john-doe@https://www.example.com/", 70⟩ : Candidate) ∈
      permuteEmails "https://www.example.com/" true ["JDoe"] false (fun _ => 0) ["John Doe"] ∧
    cleanDomain "https://www.example.com/" = "example.com" ∧
    (∀ lp : String, "john-doe@https://www.example.com/" ≠ lp ++ "@" ++ "example.com") ∧
    (⟨"JDoe@example.com", 95⟩ : Candidate) ∈
      permuteEmails "https://www.example.com/" true ["JDoe"] false (fun _ => 0) ["John Doe"] ∧
    lowerStr "JDoe" ≠ "JDoe" := by
  refine ⟨by decide, by decide, ?_, by decide, by decide⟩
  intro lp heq
  have h2 := no_slash_at_clean lp
  rw [← heq] at h2
  exact absurd h2 (by decide)

/-! ## Lowercasing lemmas: the pattern local parts are fixed points of
`lowerStr` (the model of JS `toLowerCase`) -/

theorem toNat_ofNat_valid {n : Nat} (h : n.isValidChar) : (Char.ofNat n).toNat = n := by
  rw [Char.ofNat, dif_pos h]
  rfl

theorem lowerChar_not_upper (c : Char) :
    ¬(65 ≤ (lowerChar c).toNat ∧ (lowerChar c).toNat ≤ 90) := by
  unfold lowerChar
  by_cases h : 65 ≤ c.toNat ∧ c.toNat ≤ 90
  · rw [if_pos h, toNat_ofNat_valid (Or.inl (by omega))]
    omega
  · rw [if_neg h]
    exact h

theorem lowerChar_eq_self {c : Char} (h : ¬(65 ≤ c.toNat ∧ c.toNat ≤ 90)) : lowerChar c = c := by
  unfold lowerChar
  exact if_neg h

theorem lowerChar_idem (c : Char) : lowerChar (lowerChar c) = lowerChar c :=
  lowerChar_eq_self (lowerChar_not_upper c)

theorem lowerStr_append (a b : String) : lowerStr (a ++ b) = lowerStr a ++ lowerStr b := by
  apply String.ext
  show ((a ++ b).data.map lowerChar) = (lowerStr a ++ lowerStr b).data
  rw [String.data_append, String.data_append, List.map_append]
  rfl

theorem lowerStr_lowerStr (s : String) : lowerStr (lowerStr s) = lowerStr s := by
  unfold lowerStr
  congr 1
  show (s.data.map lowerChar).map lowerChar = s.data.map lowerChar
  rw [List.map_map]
  exact List.map_congr_left (fun c _ => lowerChar_idem c)

theorem charAt0_lowerStr (s : String) : charAt0 (lowerStr s) = lowerStr (charAt0 s) := by
  unfold charAt0 lowerStr
  congr 1
  show (s.data.map lowerChar).take 1 = (s.data.take 1).map lowerChar
  rw [List.map_take]

theorem lowerStr_charAt0_fixed (s : String) :
    lowerStr (charAt0 (lowerStr s)) = charAt0 (lowerStr s) := by
  rw [charAt0_lowerStr]
  exact lowerStr_lowerStr _

theorem lowerStr_append_fixed {a b : String} (ha : lowerStr a = a) (hb : lowerStr b = b) :
    lowerStr (a ++ b) = a ++ b := by
  rw [lowerStr_append, ha, hb]

theorem lowerChar_digitChar (n : Nat) : lowerChar (Nat.digitChar n) = Nat.digitChar n := by
  rcases Nat.lt_or_ge n 16 with h | h
  · interval_cases n <;> decide
  · have hd : Nat.digitChar n = '*' := by
      unfold Nat.digitChar
      repeat rw [if_neg (by omega)]
    rw [hd]
    decide

theorem toDigitsCore_lowerChar (b : Nat) :
    ∀ (fuel n : Nat) (ds : List Char), (∀ c ∈ ds, lowerChar c = c) →
      ∀ c ∈ Nat.toDigitsCore b fuel n ds, lowerChar c = c := by
  intro fuel
  induction fuel with
  | zero =>
    intro n ds hds c hc
    simp only [Nat.toDigitsCore] at hc
    exact hds c hc
  | succ fuel ih =>
    intro n ds hds c hc
    simp only [Nat.toDigitsCore] at hc
    have hcons : ∀ x ∈ Nat.digitChar (n % b) :: ds, lowerChar x = x := by
      intro x hx
      rcases List.mem_cons.mp hx with rfl | hx
      · exact lowerChar_digitChar _
      · exact hds x hx
    by_cases h : n / b = 0
    · rw [if_pos h] at hc
      exact hcons c hc
    · rw [if_neg h] at hc
      exact ih (n / b) (Nat.digitChar (n % b) :: ds) hcons c hc

theorem lowerStr_repr (n : Nat) : lowerStr (Nat.repr n) = Nat.repr n := by
  have hfix : ∀ c ∈ Nat.toDigits 10 n, lowerChar c = c := fun c hc =>
    toDigitsCore_lowerChar 10 (n + 1) n []
      (fun x hx => absurd hx (List.not_mem_nil x)) c hc
  show String.mk ((Nat.toDigits 10 n).map lowerChar) = (Nat.toDigits 10 n).asString
  congr 1
  exact (List.map_congr_left hfix).trans (List.map_id _)

/-- Every candidate of one name's pattern catalog is a local part at `@`
followed by the cleaned domain (high tier, confidence at least 75) or the raw
domain (medium, lower and advanced tiers, confidence at most 70), and every
such local part is lowercase: a fixed point of `lowerStr`. -/
theorem personEmails_shape {cleanedDomain domain : String} {useAdvancedEmails : Bool}
    {rand : Nat} {fullName : String} {c : Candidate}
    (hc : c ∈ personEmails cleanedDomain domain useAdvancedEmails rand fullName) :
    ∃ lp : String, ((75 ≤ c.confidence ∧ c.email = lp ++ "@" ++ cleanedDomain) ∨
      (c.confidence ≤ 70 ∧ c.email = lp ++ "@" ++ domain)) ∧ lowerStr lp = lp := by
  revert hc
  simp only [personEmails]
  by_cases hz : (splitName fullName).length = 0
  · rw [if_pos hz]
    intro h
    exact absurd h (List.not_mem_nil c)
  · rw [if_neg hz]
    intro hc
    rcases List.mem_append.mp hc with hfront | hlow
    · rcases List.mem_append.mp hfront with hfront2 | hmed
      · rcases List.mem_append.mp hfront2 with hadv | hhigh
        · cases useAdvancedEmails with
          | false =>
            rw [if_neg (by simp)] at hadv
            exact absurd hadv (List.not_mem_nil c)
          | true =>
            rw [if_pos rfl] at hadv
            simp only [List.mem_cons, List.not_mem_nil, or_false] at hadv
            rcases hadv with rfl | rfl | rfl | rfl
            all_goals exact ⟨_, Or.inr ⟨by norm_num, rfl⟩, by
              repeat first
                | apply lowerStr_append_fixed
                | exact lowerStr_lowerStr _
                | exact lowerStr_charAt0_fixed _
                | exact lowerStr_repr _
                | decide⟩
        · simp only [List.mem_cons, List.not_mem_nil, or_false] at hhigh
          rcases hhigh with rfl | rfl | rfl | rfl | rfl
          all_goals exact ⟨_, Or.inl ⟨by norm_num, rfl⟩, by
            repeat first
              | apply lowerStr_append_fixed
              | exact lowerStr_lowerStr _
              | exact lowerStr_charAt0_fixed _
              | decide⟩
      · simp only [List.mem_cons, List.not_mem_nil, or_false] at hmed
        rcases hmed with rfl | rfl | rfl | rfl | rfl
        all_goals exact ⟨_, Or.inr ⟨by norm_num, rfl⟩, by
          repeat first
            | apply lowerStr_append_fixed
            | exact lowerStr_lowerStr _
            | exact lowerStr_charAt0_fixed _
            | decide⟩
    · simp only [List.mem_cons, List.not_mem_nil, or_false] at hlow
      rcases hlow with rfl | rfl | rfl | rfl | rfl
      all_goals exact ⟨_, Or.inr ⟨by norm_num, rfl⟩, by
        repeat first
          | apply lowerStr_append_fixed
          | exact lowerStr_lowerStr _
          | exact lowerStr_charAt0_fixed _
          | decide⟩

/-- C5 (amended): every candidate produced by `permute` is a local part joined
by `@` with either the cleaned domain (the high-confidence catalog tier and
the custom-name candidates, all at confidence 75 or above) or the raw
caller-supplied domain (the medium, lower and advanced tiers, all at
confidence 70 or below); and the local part is either lowercase (a fixed point
of `lowerStr` — every pattern-catalog candidate) or verbatim one of the
caller's custom names, which keep their casing. -/
theorem candidate_email_shape (domain : String) (useCustomNames : Bool)
    (selectedCustomNames : List String) (useAdvancedEmails : Bool) (rands : Nat → Nat)
    (webhookNames : List String) {c : Candidate}
    (hc : c ∈ permuteEmails domain useCustomNames selectedCustomNames useAdvancedEmails rands
      webhookNames) :
    ∃ lp : String, ((75 ≤ c.confidence ∧ c.email = lp ++ "@" ++ cleanDomain domain) ∨
      (c.confidence ≤ 70 ∧ c.email = lp ++ "@" ++ domain)) ∧
      (lowerStr lp = lp ∨ lp ∈ selectedCustomNames) := by
  have hc1 := rank_subset (show c ∈ rank _ from hc)
  rcases List.mem_append.mp hc1 with hweb | hcust
  · by_cases hw : webhookNames.length > 0
    · rw [if_pos hw] at hweb
      have hc2 := rank_subset (show c ∈ rank _ from hweb)
      obtain ⟨lsub, hlsub, hcin⟩ := List.mem_flatten.mp hc2
      obtain ⟨p, hp, rfl⟩ := List.mem_map.mp hlsub
      obtain ⟨lp, hshape, hlower⟩ := personEmails_shape hcin
      exact ⟨lp, hshape, Or.inl hlower⟩
    · rw [if_neg hw] at hweb
      exact absurd hweb (List.not_mem_nil c)
  · by_cases hcu : useCustomNames ∧ selectedCustomNames.length > 0
    · rw [if_pos hcu] at hcust
      obtain ⟨name, hname, rfl⟩ := List.mem_map.mp hcust
      exact ⟨name, Or.inl ⟨by norm_num, rfl⟩, Or.inr hname⟩
    · rw [if_neg hcu] at hcust
      exact absurd hcust (List.not_mem_nil c)

/-- Witness for C5 at the high-tier candidate `john.doe@example.com` produced
on the raw domain `https://www.example.com/`. -/
theorem candidate_email_shape_witness :
    ∃ lp : String,
      ((75 ≤ (⟨"john.doe@example.com", 95⟩ : Candidate).confidence ∧
        (⟨"john.doe@example.com", 95⟩ : Candidate).email =
          lp ++ "@" ++ cleanDomain "https://www.example.com/") ∨
      ((⟨"john.doe@example.com", 95⟩ : Candidate).confidence ≤ 70 ∧
        (⟨"john.doe@example.com", 95⟩ : Candidate).email =
          lp ++ "@" ++ "https://www.example.com/")) ∧
      (lowerStr lp = lp ∨ lp ∈ ["JDoe"]) :=
  candidate_email_shape "https://www.example.com/" true ["JDoe"] false (fun _ => 0)
    ["John Doe"] (by decide)

end Khoz
